import Mathlib

/-!
Verification of the plan-queue multi-agent orchestrator
(source file: lg-multi-agent-plan.py).

The development shallowly embeds the source program:

* the identifier extractors (`extract_work_order_id`, `extract_product_id`)
  together with a model of the two regular expressions
  `\bWO[-_ ]?\d+\b` and `\bPROD[-_ ]?\d+\b` under Python
  `re.search` semantics (leftmost match, greedy digit run, word
  boundaries), restricted to ASCII text as the source's patterns intend;
* the orchestrator state (`OrchestratorState`, a `TypedDict` with
  `total=False`, hence every field is optional), the LangGraph merge
  semantics (a node returns a partial update; present keys overwrite,
  absent keys are kept);
* each graph node (`planner_node`, `scheduling_agent_node`,
  `service_insights_agent_node`, `knowledge_agent_node`,
  `final_answer_node`, `pop_step_node`) and the conditional router
  `next_step_router`;
* the compiled graph's driver loop (`runLoop` / `runTrace`): run the
  node selected by the router, then `pop_step`, then route again, until
  the router returns `END`.

External collaborators (the Azure LLM calls) are passed in as oracle
parameters: the planner's parsed response is an
`Option (List AgentName)` (`none` models an unparseable response, i.e.
`json.loads` raising; `some l` models a parsed `plan` list, with a
missing `plan` key giving `some []`), and the final composer is a
function from the full state to the answer string.
-/

/-! ## Character classes used by the regular expressions -/

/-- Python regex `\w` (ASCII range): letters, digits, or underscore. -/
def isWordChar (c : Char) : Bool :=
  c.isAlphanum || c = '_'

/-- The optional separator class `[-_ ]` of both patterns. -/
def isSepChar (c : Char) : Bool :=
  c = '-' || c = '_' || c = ' '

/-! ## A model of `re.search` for the two identifier patterns -/

/-- Split a greedy (maximal) digit run off the front of the text,
returning the run and the remaining text. Models `\d+` matching. -/
def takeDigits : List Char → List Char × List Char
  | [] => ([], [])
  | c :: cs =>
    if c.isDigit then
      let p := takeDigits cs
      (c :: p.1, p.2)
    else ([], c :: cs)

/-- The trailing word boundary `\b`: satisfied at end of text or when the
next character is not a word character. -/
def boundaryAfter : List Char → Bool
  | [] => true
  | c :: _ => !(isWordChar c)

/-- Match `[-_ ]?\d+\b` at the head of the text, returning the matched
characters. The digit run is greedy; backtracking cannot rescue a failed
trailing boundary (shorter digit runs end in a digit, a word character),
nor a separator not followed by a digit (the separator characters are
not digits). -/
def matchTailAt (cs : List Char) : Option (List Char) :=
  match cs with
  | [] => none
  | c :: rest =>
    if isSepChar c then
      let p := takeDigits rest
      if p.1.isEmpty then none
      else if boundaryAfter p.2 then some (c :: p.1) else none
    else
      let p := takeDigits (c :: rest)
      if p.1.isEmpty then none
      else if boundaryAfter p.2 then some p.1 else none

/-- Match a literal prefix case-insensitively (the pattern prefix is
given in upper case). Returns the matched characters (original case)
and the remaining text. -/
def matchPrefixCI : List Char → List Char → Option (List Char × List Char)
  | [], cs => some ([], cs)
  | _ :: _, [] => none
  | p :: ps, c :: cs =>
    if c.toUpper = p then
      match matchPrefixCI ps cs with
      | some q => some (c :: q.1, q.2)
      | none => none
    else none

/-- Match the whole pattern `PREFIX[-_ ]?\d+\b` at the head of the text
(the leading `\b` is checked by the caller). -/
def matchIdAt (pre cs : List Char) : Option (List Char) :=
  match matchPrefixCI pre cs with
  | none => none
  | some q =>
    match matchTailAt q.2 with
    | none => none
    | some t => some (q.1 ++ t)

/-- The leading word boundary `\b` before the first pattern character:
satisfied at the start of the text or after a non-word character. -/
def boundaryOK : Option Char → Bool
  | none => true
  | some p => !(isWordChar p)

/-- Model of `re.search` for the pattern: scan left to right for the first
position admitting a match, carrying the previous character for the
leading word boundary. -/
def searchId (pre : List Char) : Option Char → List Char → Option (List Char)
  | _, [] => none
  | prev, c :: rest =>
    if boundaryOK prev then
      match matchIdAt pre (c :: rest) with
      | some m => some m
      | none => searchId pre (some c) rest
    else searchId pre (some c) rest

/-- Pattern prefix of `WO_REGEX`. -/
def WO_PAT : List Char := ['W', 'O']

/-- Pattern prefix of `PROD_REGEX`. -/
def PROD_PAT : List Char := ['P', 'R', 'O', 'D']

/-- The normalization applied to a match in the source:
`m.group(0).replace(" ", "").replace("_", "-").upper()`. -/
def normalizeTok (tok : List Char) : List Char :=
  ((tok.filter fun c => c != ' ').map fun c =>
    if c = '_' then '-' else c).map Char.toUpper

/-- Embedding of `extract_work_order_id` from the source. -/
def extract_work_order_id (text : String) : Option String :=
  (searchId WO_PAT none text.data).map fun tok => String.mk (normalizeTok tok)

/-- Embedding of `extract_product_id` from the source. -/
def extract_product_id (text : String) : Option String :=
  (searchId PROD_PAT none text.data).map fun tok => String.mk (normalizeTok tok)

example : extract_work_order_id "Provide details of work order WO1" = some "WO1" := by decide
example : extract_work_order_id "wo 1" = some "WO1" := by decide
example : extract_work_order_id "see wo_12." = some "WO-12" := by decide
example : extract_work_order_id "nothing here" = none := by decide
example : extract_work_order_id "sword 5" = none := by decide
example : extract_product_id "How do I clean product PROD-77881?" = some "PROD-77881" := by decide
example : extract_work_order_id "WO12ab and wo-9!" = some "WO-9" := by decide

/-! ## Orchestrator state and graph nodes -/

/-- The closed set of agent/node names a plan ranges over
(`AgentName = Literal[...]` in the source). -/
inductive AgentName where
  | scheduling_agent
  | service_insights_agent
  | knowledge_agent
  | final_answer
deriving DecidableEq

/-- Mock structured output of `scheduling_agent_node`. -/
structure SchedulingResult where
  agent : String
  date : String
  technician_id : String
  work_order_id : String
  scheduled_time : String
  site : String
deriving DecidableEq

/-- Structured output of `service_insights_agent_node`: either the mock
insights record, or the graph-safe fallback dict carrying an `error`
key (the MissingDependency marker). -/
inductive ServiceInsightsResult where
  | ok (agent work_order_id work_order_type product_id symptom_summary : String)
      (last_actions : List String) (priority : String)
  | missingDep (agent error : String)
deriving DecidableEq

/-- Structured output of `knowledge_agent_node`: the mock docs record,
or the fallback dict carrying an `error` key. -/
inductive KnowledgeResult where
  | ok (agent product_id doc_title : String) (cleanup_steps : List String)
      (source : String)
  | missingDep (agent error : String)
deriving DecidableEq

/-- State `OrchestratorState` (`TypedDict` with `total=False`): every key may
be absent, modelled as `Option`. The same type doubles as each node's
returned partial update, where `none` means the key is not in the
returned dict. -/
structure OrchestratorState where
  user_question : Option String := none
  plan : Option (List AgentName) := none
  work_order_id : Option String := none
  product_id : Option String := none
  scheduling_result : Option SchedulingResult := none
  service_insights_result : Option ServiceInsightsResult := none
  knowledge_result : Option KnowledgeResult := none
  final_answer : Option String := none
deriving DecidableEq

/-- Merge one key: a key present in the node's update overwrites, an
absent key keeps the old value (LangGraph state merge,
last-writer-wins). -/
def updField (new old : Option α) : Option α :=
  match new with
  | some v => some v
  | none => old

/-- Merge a node's partial update `u` into the state `s`. -/
def mergeState (s u : OrchestratorState) : OrchestratorState where
  user_question := updField u.user_question s.user_question
  plan := updField u.plan s.plan
  work_order_id := updField u.work_order_id s.work_order_id
  product_id := updField u.product_id s.product_id
  scheduling_result := updField u.scheduling_result s.scheduling_result
  service_insights_result := updField u.service_insights_result s.service_insights_result
  knowledge_result := updField u.knowledge_result s.knowledge_result
  final_answer := updField u.final_answer s.final_answer

/-- Plan ingestion in `planner_node`: `json.loads` raising (or
`data.get` failing) is `none` and falls back to `["final_answer"]`;
then `if not plan or plan[-1] != "final_answer": plan.append(...)`. -/
def plannedPlan (raw : Option (List AgentName)) : List AgentName :=
  let plan := raw.getD [AgentName.final_answer]
  if plan = [] ∨ plan.getLast? ≠ some AgentName.final_answer then
    plan ++ [AgentName.final_answer]
  else plan

/-- Guarded identifier write in `planner_node`: `if wo_id: update[...] =
wo_id` — the key is written only when extraction produced a truthy
(non-`None`, non-empty) string. -/
def truthyOpt (o : Option String) : Option String :=
  match o with
  | some v => if v.isEmpty then none else some v
  | none => none

/-- Node `planner_node`: ingest the oracle's (already parsed) plan, extract
identifiers from the user question, and return the partial update.
The source reads `state["user_question"]`, which every run populates;
an absent key is modelled as the empty string. -/
def planner_node (raw : Option (List AgentName)) (s : OrchestratorState) :
    OrchestratorState :=
  let user_q := s.user_question.getD ""
  { plan := some (plannedPlan raw)
    work_order_id := truthyOpt (extract_work_order_id user_q)
    product_id := truthyOpt (extract_product_id user_q) }

/-- The mock record returned by `scheduling_agent_node`. -/
def schedulingMock : SchedulingResult where
  agent := "scheduling_agent"
  date := "today"
  technician_id := "TECH-42"
  work_order_id := "WO-100245"
  scheduled_time := "10:00 AM"
  site := "Acme Plant - San Jose"

/-- Node `scheduling_agent_node`: ignores the state, returns the mock result
and its work order id. -/
def scheduling_agent_node (_s : OrchestratorState) : OrchestratorState :=
  { scheduling_result := some schedulingMock
    work_order_id := some schedulingMock.work_order_id }

/-- Node `service_insights_agent_node`: Python `if not work_order_id` is true
for an absent key, a `None` value, and the empty string. -/
def service_insights_agent_node (s : OrchestratorState) : OrchestratorState :=
  match s.work_order_id with
  | none =>
    { service_insights_result :=
        some (ServiceInsightsResult.missingDep "service_insights_agent" "Missing work_order_id") }
  | some wo =>
    if wo.isEmpty then
      { service_insights_result :=
          some (ServiceInsightsResult.missingDep "service_insights_agent" "Missing work_order_id") }
    else
      { service_insights_result :=
          some (ServiceInsightsResult.ok "service_insights_agent" wo "Critical" "PROD-77881"
            "Oil leakage near primary valve"
            ["2025-12-02: Replaced seal kit", "2025-10-18: Inspection and lubrication"] "High")
        product_id := some "PROD-77881" }

/-- Node `knowledge_agent_node`: same falsiness test on `product_id`. -/
def knowledge_agent_node (s : OrchestratorState) : OrchestratorState :=
  match s.product_id with
  | none =>
    { knowledge_result :=
        some (KnowledgeResult.missingDep "knowledge_agent" "Missing product_id") }
  | some pid =>
    if pid.isEmpty then
      { knowledge_result :=
          some (KnowledgeResult.missingDep "knowledge_agent" "Missing product_id") }
    else
      { knowledge_result :=
          some (KnowledgeResult.ok "knowledge_agent" pid
            "Cleaning & Maintenance Guide - Hydraulic Press Series"
            ["Power down and lockout/tagout before cleaning.",
             "Wipe exterior surfaces using a non-abrasive cloth.",
             "Use approved degreaser on oil residue near the valve housing.",
             "Inspect seals and fittings after cleaning for leak recurrence.",
             "Run a short test cycle and confirm pressure stability."]
            "KnowledgeBase") }

/-- Node `final_answer_node`: the LLM composer is an oracle from the full
state (the prompt is a pure function of the state) to the response
content; the node returns `{"final_answer": resp.content}`. -/
def final_answer_node (llm : OrchestratorState → String) (s : OrchestratorState) :
    OrchestratorState :=
  { final_answer := some (llm s) }

/-- Result type of `next_step_router`: `END` when the plan (defaulting to `[]`) is
empty, otherwise the head of the plan. `Route.finish` models `END`. -/
inductive Route where
  | agent (a : AgentName)
  | finish
deriving DecidableEq

/-- Embedding of `next_step_router` from the source. -/
def next_step_router (s : OrchestratorState) : Route :=
  match s.plan.getD [] with
  | [] => Route.finish
  | a :: _ => Route.agent a

/-- Embedding of `pop_step_node` from the source: `plan = state.get("plan", []); if
plan: plan = plan[1:]; return {"plan": plan}`. -/
def pop_step_node (s : OrchestratorState) : OrchestratorState :=
  let plan := s.plan.getD []
  let plan := if plan.isEmpty then plan else plan.tail
  { plan := some plan }

/-! ## The compiled graph's driver loop -/

/-- Dispatch an agent name to its node (the graph's node table). -/
def runAgentNode (llm : OrchestratorState → String) (a : AgentName)
    (s : OrchestratorState) : OrchestratorState :=
  match a with
  | AgentName.scheduling_agent => scheduling_agent_node s
  | AgentName.service_insights_agent => service_insights_agent_node s
  | AgentName.knowledge_agent => knowledge_agent_node s
  | AgentName.final_answer => final_answer_node llm s

/-- Run one agent node and merge its update into the state. -/
def execNode (llm : OrchestratorState → String) (a : AgentName)
    (s : OrchestratorState) : OrchestratorState :=
  mergeState s (runAgentNode llm a s)

/-- Run `pop_step` and merge its update into the state. -/
def applyPopStep (s : OrchestratorState) : OrchestratorState :=
  mergeState s (pop_step_node s)

/-- One engine iteration (the conditional edges after `planner` and
`pop_step`): route; on `END` stop, otherwise run the selected node and
then `pop_step`. -/
def engineStep (llm : OrchestratorState → String) (s : OrchestratorState) :
    Option OrchestratorState :=
  match next_step_router s with
  | Route.finish => none
  | Route.agent a => some (applyPopStep (execNode llm a s))

example :
    engineStep (fun _ => "ans") { plan := some [AgentName.final_answer] } =
      some { plan := some [], final_answer := some "ans" } := by decide

/-- The driver loop of the compiled graph from the state reached after
`planner`: route, run the selected node, `pop_step`, repeat until the
router returns `END`. Returns the final state together with the trace
of executed agent nodes. Termination is by the strictly decreasing
plan length (every node leaves `plan` untouched and `pop_step` removes
its head). -/
def runEngine (llm : OrchestratorState → String) (s : OrchestratorState) :
    OrchestratorState × List AgentName :=
  match h : next_step_router s with
  | Route.finish => (s, [])
  | Route.agent a =>
    let r := runEngine llm (applyPopStep (execNode llm a s))
    (r.1, a :: r.2)
termination_by (s.plan.getD []).length
decreasing_by
  have hplan : (runAgentNode llm a s).plan = none := by
    cases a
    · rfl
    · simp only [runAgentNode, service_insights_agent_node]
      cases s.work_order_id with
      | none => rfl
      | some wo => cases hwo : wo.isEmpty <;> simp [hwo]
    · simp only [runAgentNode, knowledge_agent_node]
      cases s.product_id with
      | none => rfl
      | some pid => cases hp : pid.isEmpty <;> simp [hp]
    · rfl
  have hexec : (execNode llm a s).plan = s.plan := by
    simp [execNode, mergeState, hplan, updField]
  have hpop : (applyPopStep (execNode llm a s)).plan.getD [] =
      (if (s.plan.getD []).isEmpty then s.plan.getD [] else (s.plan.getD []).tail) := by
    simp [applyPopStep, mergeState, pop_step_node, updField, hexec]
  rw [hpop]
  unfold next_step_router at h
  cases hq : s.plan.getD [] with
  | nil => rw [hq] at h; cases h
  | cons b t => simp

/-- The final state of the loop. -/
def runLoop (llm : OrchestratorState → String) (s : OrchestratorState) :
    OrchestratorState :=
  (runEngine llm s).1

/-- The sequence of agent nodes the loop executes, in order. -/
def runTrace (llm : OrchestratorState → String) (s : OrchestratorState) :
    List AgentName :=
  (runEngine llm s).2

/-- The initial state of `app.invoke({"user_question": q})`. -/
def initState (q : String) : OrchestratorState :=
  { user_question := some q }

/-- The state after the entry node `planner` has run and its update has
been merged. -/
def postPlanner (raw : Option (List AgentName)) (q : String) :
    OrchestratorState :=
  mergeState (initState q) (planner_node raw (initState q))

/-- A full run of the compiled graph: planner, then the driver loop. -/
def runApp (llm : OrchestratorState → String) (raw : Option (List AgentName))
    (q : String) : OrchestratorState :=
  runLoop llm (postPlanner raw q)

/-- The agent nodes a full run executes, in order. -/
def appTrace (llm : OrchestratorState → String) (raw : Option (List AgentName))
    (q : String) : List AgentName :=
  runTrace llm (postPlanner raw q)

/-- Reachability in the engine loop: the states the run passes through
from a given start state. -/
inductive Reaches (llm : OrchestratorState → String) :
    OrchestratorState → OrchestratorState → Prop where
  | refl (s : OrchestratorState) : Reaches llm s s
  | step {s s' s'' : OrchestratorState} :
      engineStep llm s = some s' → Reaches llm s' s'' → Reaches llm s s''

/-- The identifier invariant of claim C8: whenever `work_order_id` or
`product_id` is present in the blackboard, it holds a non-empty
string. -/
def IdsNonEmpty (s : OrchestratorState) : Prop :=
  (∀ v, s.work_order_id = some v → v ≠ "") ∧
  (∀ v, s.product_id = some v → v ≠ "")

/-! ## Structural lemmas about the engine -/

theorem runAgentNode_plan (llm : OrchestratorState → String) (a : AgentName)
    (s : OrchestratorState) : (runAgentNode llm a s).plan = none := by
  cases a
  · rfl
  · simp only [runAgentNode, service_insights_agent_node]
    cases s.work_order_id with
    | none => rfl
    | some wo => cases hwo : wo.isEmpty <;> simp [hwo]
  · simp only [runAgentNode, knowledge_agent_node]
    cases s.product_id with
    | none => rfl
    | some pid => cases hp : pid.isEmpty <;> simp [hp]
  · rfl

theorem execNode_plan (llm : OrchestratorState → String) (a : AgentName)
    (s : OrchestratorState) : (execNode llm a s).plan = s.plan := by
  simp [execNode, mergeState, runAgentNode_plan, updField]

theorem applyPopStep_plan (s : OrchestratorState) :
    (applyPopStep s).plan =
      some (if (s.plan.getD []).isEmpty then s.plan.getD [] else (s.plan.getD []).tail) := by
  simp [applyPopStep, mergeState, pop_step_node, updField]

theorem step_plan (llm : OrchestratorState → String) (a : AgentName)
    (s : OrchestratorState) (t : List AgentName)
    (h : s.plan.getD [] = a :: t) :
    (applyPopStep (execNode llm a s)).plan = some t := by
  rw [applyPopStep_plan, execNode_plan, h]
  simp

theorem router_eq_finish (s : OrchestratorState) (h : s.plan.getD [] = []) :
    next_step_router s = Route.finish := by
  unfold next_step_router
  rw [h]

theorem router_eq_agent (s : OrchestratorState) (a : AgentName)
    (t : List AgentName) (h : s.plan.getD [] = a :: t) :
    next_step_router s = Route.agent a := by
  unfold next_step_router
  rw [h]

theorem router_cases (s : OrchestratorState) (a : AgentName)
    (h : next_step_router s = Route.agent a) :
    ∃ t, s.plan.getD [] = a :: t := by
  unfold next_step_router at h
  cases hq : s.plan.getD [] with
  | nil => rw [hq] at h; cases h
  | cons b t =>
    rw [hq] at h
    cases h
    exact ⟨t, rfl⟩

/-- The trace of the loop is exactly the plan of the start state: every
planned step is executed, in order, and nothing else. -/
theorem runEngine_trace (llm : OrchestratorState → String) :
    ∀ (p : List AgentName) (s : OrchestratorState), s.plan = some p →
      (runEngine llm s).2 = p := by
  intro p
  induction p with
  | nil =>
    intro s hs
    have hr : next_step_router s = Route.finish := router_eq_finish s (by simp [hs])
    rw [runEngine]
    split
    · rfl
    · rename_i a heq
      rw [hr] at heq
      cases heq
  | cons a t ih =>
    intro s hs
    have hr : next_step_router s = Route.agent a :=
      router_eq_agent s a t (by simp [hs])
    rw [runEngine]
    split
    · rename_i heq
      rw [hr] at heq
      cases heq
    · rename_i b heq
      rw [hr] at heq
      cases heq
      have hnext : (applyPopStep (execNode llm a s)).plan = some t :=
        step_plan llm a s t (by simp [hs])
      simp [ih _ hnext]

theorem updField_isSome {α : Type} (u o : Option α) (h : o.isSome = true) :
    (updField u o).isSome = true := by
  cases u <;> simp [updField, h]

theorem applyPopStep_final (s : OrchestratorState) :
    (applyPopStep s).final_answer = s.final_answer := rfl

theorem execNode_final_isSome (llm : OrchestratorState → String) (a : AgentName)
    (s : OrchestratorState) (h : s.final_answer.isSome = true) :
    (execNode llm a s).final_answer.isSome = true :=
  updField_isSome _ _ h

theorem execNode_final_answer (llm : OrchestratorState → String)
    (s : OrchestratorState) :
    (execNode llm AgentName.final_answer s).final_answer = some (llm s) := rfl

/-- Once `final_answer` is present it stays present for the rest of the
loop (no node erases a key; the composer only overwrites it). -/
theorem runEngine_final_mono (llm : OrchestratorState → String) :
    ∀ (p : List AgentName) (s : OrchestratorState), s.plan = some p →
      s.final_answer.isSome = true →
      (runEngine llm s).1.final_answer.isSome = true := by
  intro p
  induction p with
  | nil =>
    intro s hs hf
    have hr : next_step_router s = Route.finish := router_eq_finish s (by simp [hs])
    rw [runEngine]
    split
    · exact hf
    · rename_i a heq
      rw [hr] at heq
      cases heq
  | cons a t ih =>
    intro s hs hf
    have hr : next_step_router s = Route.agent a :=
      router_eq_agent s a t (by simp [hs])
    rw [runEngine]
    split
    · rename_i heq
      rw [hr] at heq
      cases heq
    · rename_i b heq
      rw [hr] at heq
      cases heq
      have hnext : (applyPopStep (execNode llm a s)).plan = some t :=
        step_plan llm a s t (by simp [hs])
      have hf' : (applyPopStep (execNode llm a s)).final_answer.isSome = true := by
        rw [applyPopStep_final]
        exact execNode_final_isSome llm a s hf
      exact ih _ hnext hf'

/-- If the plan contains the terminal step, the loop ends with a
rendered `final_answer` in the blackboard. -/
theorem runEngine_final (llm : OrchestratorState → String) :
    ∀ (p : List AgentName) (s : OrchestratorState), s.plan = some p →
      AgentName.final_answer ∈ p →
      (runEngine llm s).1.final_answer.isSome = true := by
  intro p
  induction p with
  | nil =>
    intro s _ hmem
    cases hmem
  | cons a t ih =>
    intro s hs hmem
    have hr : next_step_router s = Route.agent a :=
      router_eq_agent s a t (by simp [hs])
    rw [runEngine]
    split
    · rename_i heq
      rw [hr] at heq
      cases heq
    · rename_i b heq
      rw [hr] at heq
      cases heq
      have hnext : (applyPopStep (execNode llm a s)).plan = some t :=
        step_plan llm a s t (by simp [hs])
      by_cases ha : a = AgentName.final_answer
      · subst ha
        have hf' : (applyPopStep (execNode llm AgentName.final_answer s)).final_answer.isSome = true := by
          rw [applyPopStep_final, execNode_final_answer]
          rfl
        exact runEngine_final_mono llm t _ hnext hf'
      · have hmem' : AgentName.final_answer ∈ t := by
          cases List.mem_cons.mp hmem with
          | inl hh => exact absurd hh.symm ha
          | inr hh => exact hh
        exact ih _ hnext hmem'

/-! ## Lemmas about the planner's plan ingestion -/

theorem postPlanner_plan (raw : Option (List AgentName)) (q : String) :
    (postPlanner raw q).plan = some (plannedPlan raw) := rfl

theorem plannedPlan_getLast (raw : Option (List AgentName)) :
    (plannedPlan raw).getLast? = some AgentName.final_answer := by
  simp only [plannedPlan]
  split
  · exact List.getLast?_concat _
  · rename_i hcond
    push_neg at hcond
    exact hcond.2

theorem final_mem_plannedPlan (raw : Option (List AgentName)) :
    AgentName.final_answer ∈ plannedPlan raw :=
  List.mem_of_getLast?_eq_some (plannedPlan_getLast raw)

/-- When the oracle's raw plan mentions the terminal step only in final
position (or not at all, or is absent), the normalized plan contains it
exactly once. -/
theorem plannedPlan_count_one (raw : Option (List AgentName))
    (h : ∀ p, raw = some p → AgentName.final_answer ∉ p.dropLast) :
    (plannedPlan raw).count AgentName.final_answer = 1 := by
  cases raw with
  | none => rfl
  | some p =>
    have hdrop : AgentName.final_answer ∉ p.dropLast := h p rfl
    simp only [plannedPlan, Option.getD]
    split
    · rename_i hcond
      cases hcond with
      | inl hnil =>
        subst hnil
        rfl
      | inr hlast =>
        by_cases hnil : p = []
        · subst hnil
          rfl
        · have hp : p.dropLast ++ [p.getLast hnil] = p :=
            List.dropLast_append_getLast hnil
          have hlastne : p.getLast hnil ≠ AgentName.final_answer := by
            intro hceq
            exact hlast (hceq ▸ List.getLast?_eq_getLast p hnil)
          rw [← hp]
          simp [List.count_append, List.count_eq_zero.mpr hdrop,
            List.count_singleton_self,
            List.count_cons_of_ne (Ne.symm hlastne)]
    · rename_i hcond
      push_neg at hcond
      obtain ⟨hnil, hlast⟩ := hcond
      have hnil' : p ≠ [] := hnil
      have hp : p.dropLast ++ [p.getLast hnil'] = p :=
        List.dropLast_append_getLast hnil'
      have hlasteq : p.getLast hnil' = AgentName.final_answer := by
        have := List.getLast?_eq_getLast p hnil'
        rw [hlast] at this
        exact (Option.some.injEq _ _ ▸ this.symm)
      rw [← hp, hlasteq]
      simp [List.count_append, List.count_eq_zero.mpr hdrop]

/-! ## Lemmas about the identifier extractors -/

theorem mapIdOn {α : Type} (f : α → α) :
    ∀ l : List α, (∀ c ∈ l, f c = c) → l.map f = l := by
  intro l
  induction l with
  | nil => intro _; rfl
  | cons c cs ih =>
    intro h
    simp only [List.map_cons]
    rw [h c (List.mem_cons_self c cs), ih fun x hx => h x (List.mem_cons_of_mem c hx)]

theorem takeDigits_digits : ∀ cs : List Char, ∀ c ∈ (takeDigits cs).1, c.isDigit = true := by
  intro cs
  induction cs with
  | nil => intro c hc; cases hc
  | cons b bs ih =>
    intro c hc
    simp only [takeDigits] at hc
    by_cases hb : b.isDigit = true
    · rw [if_pos hb] at hc
      cases List.mem_cons.mp hc with
      | inl h => rw [h]; exact hb
      | inr h => exact ih c h
    · rw [if_neg hb] at hc
      cases hc

theorem takeDigits_all : ∀ ds : List Char, (∀ c ∈ ds, c.isDigit = true) →
    takeDigits ds = (ds, []) := by
  intro ds
  induction ds with
  | nil => intro _; rfl
  | cons b bs ih =>
    intro h
    simp only [takeDigits]
    rw [if_pos (h b (List.mem_cons_self b bs)), ih fun c hc => h c (List.mem_cons_of_mem b hc)]

/-- Shape of a successful tail match `[-_ ]?\d+\b`: an optional single
separator character followed by a non-empty digit run. -/
theorem matchTailAt_shape (cs t : List Char) (h : matchTailAt cs = some t) :
    ∃ s ds, (s = [] ∨ ∃ c, isSepChar c = true ∧ s = [c]) ∧ ds ≠ [] ∧
      (∀ c ∈ ds, c.isDigit = true) ∧ t = s ++ ds := by
  cases cs with
  | nil => cases h
  | cons c rest =>
    simp only [matchTailAt] at h
    by_cases hsep : isSepChar c = true
    · rw [if_pos hsep] at h
      by_cases hemp : (takeDigits rest).1.isEmpty = true
      · rw [if_pos hemp] at h
        cases h
      · rw [if_neg hemp] at h
        by_cases hb : boundaryAfter (takeDigits rest).2 = true
        · rw [if_pos hb] at h
          cases h
          refine ⟨[c], (takeDigits rest).1, Or.inr ⟨c, hsep, rfl⟩, ?_, takeDigits_digits rest, rfl⟩
          intro hnil
          rw [hnil] at hemp
          exact hemp rfl
        · rw [if_neg hb] at h
          cases h
    · rw [if_neg hsep] at h
      by_cases hemp : (takeDigits (c :: rest)).1.isEmpty = true
      · rw [if_pos hemp] at h
        cases h
      · rw [if_neg hemp] at h
        by_cases hb : boundaryAfter (takeDigits (c :: rest)).2 = true
        · rw [if_pos hb] at h
          cases h
          refine ⟨[], (takeDigits (c :: rest)).1, Or.inl rfl, ?_,
            takeDigits_digits (c :: rest), rfl⟩
          intro hnil
          rw [hnil] at hemp
          exact hemp rfl
        · rw [if_neg hb] at h
          cases h

theorem matchPrefixCI_map : ∀ (ps cs m r : List Char),
    matchPrefixCI ps cs = some (m, r) → m.map Char.toUpper = ps := by
  intro ps
  induction ps with
  | nil =>
    intro cs m r h
    simp only [matchPrefixCI] at h
    cases h
    rfl
  | cons p ps ih =>
    intro cs m r h
    cases cs with
    | nil => cases h
    | cons c cs' =>
      simp only [matchPrefixCI] at h
      by_cases hc : c.toUpper = p
      · rw [if_pos hc] at h
        cases hq : matchPrefixCI ps cs' with
        | none => rw [hq] at h; cases h
        | some q =>
          rw [hq] at h
          cases h
          simp only [List.map_cons, hc]
          rw [ih cs' q.1 q.2 (by rw [hq])]
      · rw [if_neg hc] at h
        cases h

theorem matchPrefixCI_self : ∀ ps r : List Char, (∀ p ∈ ps, p.toUpper = p) →
    matchPrefixCI ps (ps ++ r) = some (ps, r) := by
  intro ps
  induction ps with
  | nil => intro r _; rfl
  | cons p ps ih =>
    intro r h
    simp only [List.cons_append, matchPrefixCI]
    rw [if_pos (h p (List.mem_cons_self p ps))]
    have := ih r fun x hx => h x (List.mem_cons_of_mem p hx)
    simp only [List.append_eq] at this ⊢
    rw [this]

theorem matchIdAt_shape (pre cs tok : List Char) (h : matchIdAt pre cs = some tok) :
    ∃ m s ds, m.map Char.toUpper = pre ∧
      (s = [] ∨ ∃ c, isSepChar c = true ∧ s = [c]) ∧ ds ≠ [] ∧
      (∀ c ∈ ds, c.isDigit = true) ∧ tok = m ++ (s ++ ds) := by
  cases hq : matchPrefixCI pre cs with
  | none =>
    simp only [matchIdAt, hq] at h
    exact Option.noConfusion h
  | some q =>
    cases ht : matchTailAt q.2 with
    | none =>
      simp only [matchIdAt, hq, ht] at h
      exact Option.noConfusion h
    | some t =>
      simp only [matchIdAt, hq, ht] at h
      cases h
      obtain ⟨s, ds, hs, hds, hd, hteq⟩ := matchTailAt_shape q.2 t ht
      exact ⟨q.1, s, ds, matchPrefixCI_map pre cs q.1 q.2 (by rw [hq]), hs, hds, hd,
        by rw [hteq]⟩

theorem searchId_shape (pre : List Char) :
    ∀ (cs : List Char) (prev : Option Char) (tok : List Char),
      searchId pre prev cs = some tok →
      ∃ m s ds, m.map Char.toUpper = pre ∧
        (s = [] ∨ ∃ c, isSepChar c = true ∧ s = [c]) ∧ ds ≠ [] ∧
        (∀ c ∈ ds, c.isDigit = true) ∧ tok = m ++ (s ++ ds) := by
  intro cs
  induction cs with
  | nil => intro prev tok h; cases h
  | cons c rest ih =>
    intro prev tok h
    by_cases hb : boundaryOK prev = true
    · cases hm : matchIdAt pre (c :: rest) with
      | none =>
        simp only [searchId, if_pos hb, hm] at h
        exact ih (some c) tok h
      | some m =>
        simp only [searchId, if_pos hb, hm] at h
        cases h
        exact matchIdAt_shape pre (c :: rest) _ hm
    · simp only [searchId, if_neg hb] at h
      exact ih (some c) tok h

theorem isDigit_toNat (c : Char) (h : c.isDigit = true) :
    48 ≤ c.toNat ∧ c.toNat ≤ 57 := by
  simp only [Char.isDigit, Bool.and_eq_true, decide_eq_true_eq] at h
  exact ⟨h.1, h.2⟩

theorem toUpper_of_not_lower (c : Char) (h : ¬(c.toNat ≥ 97 ∧ c.toNat ≤ 122)) :
    c.toUpper = c := by
  simp only [Char.toUpper]
  rw [if_neg h]

theorem isDigit_toUpper (c : Char) (h : c.isDigit = true) : c.toUpper = c := by
  have hd := isDigit_toNat c h
  exact toUpper_of_not_lower c (by omega)

theorem isDigit_ne_space (c : Char) (h : c.isDigit = true) : c ≠ ' ' := by
  intro he
  rw [he] at h
  exact absurd h (by decide)

theorem isDigit_ne_und (c : Char) (h : c.isDigit = true) : c ≠ '_' := by
  intro he
  rw [he] at h
  exact absurd h (by decide)

theorem isDigit_not_sep (c : Char) (h : c.isDigit = true) : isSepChar c = false := by
  cases hs : isSepChar c with
  | false => rfl
  | true =>
    simp only [isSepChar, Bool.or_eq_true, decide_eq_true_eq] at hs
    rcases hs with (hs | hs) | hs <;> rw [hs] at h <;> exact absurd h (by decide)

/-! ## Lemmas about the normalization of a match -/

theorem normalizeTok_append (a b : List Char) :
    normalizeTok (a ++ b) = normalizeTok a ++ normalizeTok b := by
  simp [normalizeTok, List.filter_append]

theorem normalizeTok_of_clean (l : List Char) (h : ∀ c ∈ l, c ≠ ' ' ∧ c ≠ '_') :
    normalizeTok l = l.map Char.toUpper := by
  unfold normalizeTok
  rw [List.filter_eq_self.mpr fun c hc => by
    simp only [bne_iff_ne, ne_eq]
    exact (h c hc).1]
  rw [mapIdOn _ l fun c hc => if_neg (h c hc).2]

theorem normalizeTok_digits (ds : List Char) (h : ∀ c ∈ ds, c.isDigit = true) :
    normalizeTok ds = ds := by
  rw [normalizeTok_of_clean ds fun c hc =>
    ⟨isDigit_ne_space c (h c hc), isDigit_ne_und c (h c hc)⟩]
  exact mapIdOn _ ds fun c hc => isDigit_toUpper c (h c hc)

theorem normalizeTok_matched (m pre : List Char)
    (hm : m.map Char.toUpper = pre)
    (hpre : ∀ p ∈ pre, p ≠ ' ' ∧ p ≠ '_') : normalizeTok m = pre := by
  rw [normalizeTok_of_clean m ?_, hm]
  intro c hc
  have hcp : c.toUpper ∈ pre := hm ▸ List.mem_map_of_mem Char.toUpper hc
  constructor
  · intro he
    rw [he] at hcp
    exact (hpre ' ' (by simpa using hcp)).1 rfl
  · intro he
    rw [he] at hcp
    exact (hpre '_' (by simpa using hcp)).2 rfl

theorem normalizeTok_sep (s : List Char)
    (h : s = [] ∨ ∃ c, isSepChar c = true ∧ s = [c]) :
    normalizeTok s = [] ∨ normalizeTok s = ['-'] := by
  cases h with
  | inl hnil =>
    subst hnil
    exact Or.inl rfl
  | inr hc =>
    obtain ⟨c, hsep, hs⟩ := hc
    subst hs
    simp only [isSepChar, Bool.or_eq_true, decide_eq_true_eq] at hsep
    rcases hsep with (hh | hh) | hh <;> subst hh
    · exact Or.inr (by decide)
    · exact Or.inr (by decide)
    · exact Or.inl (by decide)

/-- A successful extraction, after the source's normalization, has the
canonical shape: the upper-case pattern prefix, an optional single
dash, then a non-empty digit run. -/
theorem extract_canonical (pre : List Char)
    (hpre : ∀ p ∈ pre, p.toUpper = p ∧ p ≠ ' ' ∧ p ≠ '_')
    (cs tok : List Char) (h : searchId pre none cs = some tok) :
    ∃ s ds, (s = [] ∨ s = ['-']) ∧ ds ≠ [] ∧ (∀ c ∈ ds, c.isDigit = true) ∧
      normalizeTok tok = pre ++ (s ++ ds) := by
  obtain ⟨m, s, ds, hm, hs, hds, hd, htok⟩ := searchId_shape pre cs none tok h
  have hsep := normalizeTok_sep s hs
  have hdig := normalizeTok_digits ds hd
  have hmn := normalizeTok_matched m pre hm fun p hp => ⟨(hpre p hp).2.1, (hpre p hp).2.2⟩
  cases hsep with
  | inl hnil =>
    refine ⟨[], ds, Or.inl rfl, hds, hd, ?_⟩
    rw [htok, normalizeTok_append, normalizeTok_append, hmn, hnil, hdig]
  | inr hdash =>
    refine ⟨['-'], ds, Or.inr rfl, hds, hd, ?_⟩
    rw [htok, normalizeTok_append, normalizeTok_append, hmn, hdash, hdig]

/-- Searching canonical text finds the whole text as the match. -/
theorem searchId_canonical (pre : List Char)
    (hpre : ∀ p ∈ pre, p.toUpper = p) (hne : pre ≠ [])
    (s ds : List Char) (hs : s = [] ∨ s = ['-']) (hds : ds ≠ [])
    (hd : ∀ c ∈ ds, c.isDigit = true) :
    searchId pre none (pre ++ (s ++ ds)) = some (pre ++ (s ++ ds)) := by
  have htail : matchTailAt (s ++ ds) = some (s ++ ds) := by
    cases hs with
    | inl hnil =>
      subst hnil
      rw [List.nil_append]
      cases ds with
      | nil => exact absurd rfl hds
      | cons d ds' =>
        simp only [matchTailAt]
        rw [if_neg (by rw [isDigit_not_sep d (hd d (List.mem_cons_self d ds'))]; simp)]
        rw [takeDigits_all (d :: ds') hd]
        rfl
    | inr hdash =>
      subst hdash
      simp only [List.cons_append, List.nil_append, matchTailAt]
      rw [if_pos (by decide)]
      rw [takeDigits_all ds hd]
      cases ds with
      | nil => exact absurd rfl hds
      | cons d ds' => rfl
  have hid : matchIdAt pre (pre ++ (s ++ ds)) = some (pre ++ (s ++ ds)) := by
    simp only [matchIdAt, matchPrefixCI_self pre (s ++ ds) hpre, htail]
  cases hp : pre with
  | nil => exact absurd hp hne
  | cons p ps =>
    subst hp
    simp only [List.cons_append] at hid ⊢
    simp [searchId, boundaryOK, hid]

/-- The value returned by a successful extraction is unchanged by the
source's normalization. -/
theorem normalizeTok_canonical (pre : List Char)
    (hpre : ∀ p ∈ pre, p.toUpper = p ∧ p ≠ ' ' ∧ p ≠ '_')
    (s ds : List Char) (hs : s = [] ∨ s = ['-']) (hd : ∀ c ∈ ds, c.isDigit = true) :
    normalizeTok (pre ++ (s ++ ds)) = pre ++ (s ++ ds) := by
  rw [normalizeTok_append, normalizeTok_append]
  rw [normalizeTok_matched pre pre (mapIdOn _ pre fun p hp => (hpre p hp).1)
    fun p hp => ⟨(hpre p hp).2.1, (hpre p hp).2.2⟩]
  rw [normalizeTok_digits ds hd]
  cases hs with
  | inl hnil => subst hnil; rfl
  | inr hdash => subst hdash; rfl

/-- Character-level properties of the canonical form: no space, no
underscore, fixed by upper-casing. -/
theorem canonical_props (pre s ds : List Char)
    (hpre : ∀ p ∈ pre, p.toUpper = p ∧ p ≠ ' ' ∧ p ≠ '_')
    (hs : s = [] ∨ s = ['-']) (hd : ∀ c ∈ ds, c.isDigit = true) :
    ' ' ∉ pre ++ (s ++ ds) ∧ '_' ∉ pre ++ (s ++ ds) ∧
      (pre ++ (s ++ ds)).map Char.toUpper = pre ++ (s ++ ds) := by
  have hsmem : ∀ c ∈ s, c = '-' := by
    intro c hc
    cases hs with
    | inl hnil => subst hnil; cases hc
    | inr hdash =>
      subst hdash
      simpa using hc
  refine ⟨?_, ?_, ?_⟩
  · intro hmem
    rcases List.mem_append.mp hmem with hm | hm
    · exact (hpre ' ' hm).2.1 rfl
    · rcases List.mem_append.mp hm with hm' | hm'
      · cases hsmem ' ' hm'
      · exact isDigit_ne_space ' ' (hd ' ' hm') rfl
  · intro hmem
    rcases List.mem_append.mp hmem with hm | hm
    · exact (hpre '_' hm).2.2 rfl
    · rcases List.mem_append.mp hm with hm' | hm'
      · cases hsmem '_' hm'
      · exact isDigit_ne_und '_' (hd '_' hm') rfl
  · refine mapIdOn Char.toUpper _ ?_
    intro c hc
    rcases List.mem_append.mp hc with hm | hm
    · exact (hpre c hm).1
    · rcases List.mem_append.mp hm with hm' | hm'
      · rw [hsmem c hm']
        decide
      · exact isDigit_toUpper c (hd c hm')

/-- Re-searching and re-normalizing the normalized match changes
nothing. -/
theorem searchId_norm_idem (pre : List Char)
    (hpre : ∀ p ∈ pre, p.toUpper = p ∧ p ≠ ' ' ∧ p ≠ '_') (hne : pre ≠ [])
    (t tok : List Char) (h : searchId pre none t = some tok) :
    searchId pre none (normalizeTok tok) = some (normalizeTok tok) ∧
      normalizeTok (normalizeTok tok) = normalizeTok tok := by
  obtain ⟨s, ds, hs, hds, hd, hn⟩ := extract_canonical pre hpre t tok h
  rw [hn]
  exact ⟨searchId_canonical pre (fun p hp => (hpre p hp).1) hne s ds hs hds hd,
    normalizeTok_canonical pre hpre s ds hs hd⟩

theorem extract_work_order_id_idem (t v : String)
    (h : extract_work_order_id t = some v) : extract_work_order_id v = some v := by
  unfold extract_work_order_id at h ⊢
  obtain ⟨tok, hsearch, heq⟩ := Option.map_eq_some'.mp h
  obtain ⟨idem1, idem2⟩ :=
    searchId_norm_idem WO_PAT (by decide) (by decide) t.data tok hsearch
  subst heq
  rw [show (String.mk (normalizeTok tok)).data = normalizeTok tok from rfl, idem1]
  simp [idem2]

theorem extract_product_id_idem (t v : String)
    (h : extract_product_id t = some v) : extract_product_id v = some v := by
  unfold extract_product_id at h ⊢
  obtain ⟨tok, hsearch, heq⟩ := Option.map_eq_some'.mp h
  obtain ⟨idem1, idem2⟩ :=
    searchId_norm_idem PROD_PAT (by decide) (by decide) t.data tok hsearch
  subst heq
  rw [show (String.mk (normalizeTok tok)).data = normalizeTok tok from rfl, idem1]
  simp [idem2]

/-- Character-level description of any value a successful extraction
returns. -/
theorem extract_value_props (pre : List Char)
    (hpre : ∀ p ∈ pre, p.toUpper = p ∧ p ≠ ' ' ∧ p ≠ '_')
    (t : List Char) (v : String)
    (h : (searchId pre none t).map (fun tok => String.mk (normalizeTok tok)) = some v) :
    v ≠ "" ∧ ' ' ∉ v.data ∧ '_' ∉ v.data ∧ v.data.map Char.toUpper = v.data := by
  obtain ⟨tok, hsearch, heq⟩ := Option.map_eq_some'.mp h
  obtain ⟨s, ds, hs, hds, hd, hn⟩ := extract_canonical pre hpre t tok hsearch
  subst heq
  have hdata : (String.mk (normalizeTok tok)).data = pre ++ (s ++ ds) := by
    rw [show (String.mk (normalizeTok tok)).data = normalizeTok tok from rfl, hn]
  obtain ⟨h1, h2, h3⟩ := canonical_props pre s ds hpre hs hd
  refine ⟨?_, hdata ▸ h1, hdata ▸ h2, by rw [hdata]; exact h3⟩
  intro hv
  have : (String.mk (normalizeTok tok)).data = [] := by rw [hv]
  rw [hdata] at this
  rcases List.append_eq_nil.mp this with ⟨-, hsd⟩
  exact hds (List.append_eq_nil.mp hsd).2

/-! ## Lemmas about identifier keys in the engine -/

theorem updField_none_right {α : Type} (u : Option α) : updField u none = u := by
  cases u <;> rfl

theorem truthyOpt_nonempty (o : Option String) (v : String)
    (h : truthyOpt o = some v) : v ≠ "" := by
  cases o with
  | none => cases h
  | some w =>
    simp only [truthyOpt] at h
    by_cases hw : w.isEmpty = true
    · rw [if_pos hw] at h
      cases h
    · rw [if_neg hw] at h
      cases h
      intro hv
      rw [hv] at hw
      exact hw (by decide)

theorem postPlanner_work (raw : Option (List AgentName)) (q : String) :
    (postPlanner raw q).work_order_id = truthyOpt (extract_work_order_id q) := by
  simp only [postPlanner, mergeState, planner_node, initState]
  rw [updField_none_right]
  rfl

theorem postPlanner_product (raw : Option (List AgentName)) (q : String) :
    (postPlanner raw q).product_id = truthyOpt (extract_product_id q) := by
  simp only [postPlanner, mergeState, planner_node, initState]
  rw [updField_none_right]
  rfl

theorem postPlanner_inv (raw : Option (List AgentName)) (q : String) :
    IdsNonEmpty (postPlanner raw q) := by
  constructor
  · intro v hv
    rw [postPlanner_work] at hv
    exact truthyOpt_nonempty _ v hv
  · intro v hv
    rw [postPlanner_product] at hv
    exact truthyOpt_nonempty _ v hv

theorem runAgentNode_work (llm : OrchestratorState → String) (a : AgentName)
    (s : OrchestratorState) :
    (runAgentNode llm a s).work_order_id = none ∨
      (runAgentNode llm a s).work_order_id = some "WO-100245" := by
  cases a
  · exact Or.inr rfl
  · cases hwo : s.work_order_id with
    | none => simp [runAgentNode, service_insights_agent_node, hwo]
    | some wo =>
      simp only [runAgentNode, service_insights_agent_node, hwo]
      by_cases hw : wo.isEmpty = true
      · rw [if_pos hw]
        exact Or.inl rfl
      · rw [if_neg hw]
        exact Or.inl rfl
  · cases hpid : s.product_id with
    | none => simp [runAgentNode, knowledge_agent_node, hpid]
    | some pid =>
      simp only [runAgentNode, knowledge_agent_node, hpid]
      by_cases hp : pid.isEmpty = true
      · rw [if_pos hp]
        exact Or.inl rfl
      · rw [if_neg hp]
        exact Or.inl rfl
  · exact Or.inl rfl

theorem runAgentNode_product (llm : OrchestratorState → String) (a : AgentName)
    (s : OrchestratorState) :
    (runAgentNode llm a s).product_id = none ∨
      (runAgentNode llm a s).product_id = some "PROD-77881" := by
  cases a
  · exact Or.inl rfl
  · cases hwo : s.work_order_id with
    | none => simp [runAgentNode, service_insights_agent_node, hwo]
    | some wo =>
      simp only [runAgentNode, service_insights_agent_node, hwo]
      by_cases hw : wo.isEmpty = true
      · rw [if_pos hw]
        exact Or.inl rfl
      · rw [if_neg hw]
        exact Or.inr rfl
  · cases hpid : s.product_id with
    | none => simp [runAgentNode, knowledge_agent_node, hpid]
    | some pid =>
      simp only [runAgentNode, knowledge_agent_node, hpid]
      by_cases hp : pid.isEmpty = true
      · rw [if_pos hp]
        exact Or.inl rfl
      · rw [if_neg hp]
        exact Or.inl rfl
  · exact Or.inl rfl

theorem engineStep_inv (llm : OrchestratorState → String) (s s' : OrchestratorState)
    (h : engineStep llm s = some s') (hinv : IdsNonEmpty s) : IdsNonEmpty s' := by
  unfold engineStep at h
  cases hr : next_step_router s with
  | finish =>
    rw [hr] at h
    cases h
  | agent a =>
    rw [hr] at h
    cases h
    constructor
    · intro v hv
      rw [show (applyPopStep (execNode llm a s)).work_order_id =
        updField (runAgentNode llm a s).work_order_id s.work_order_id from rfl] at hv
      rcases runAgentNode_work llm a s with hn | hn
      · rw [hn] at hv
        exact hinv.1 v hv
      · rw [hn] at hv
        cases hv
        decide
    · intro v hv
      rw [show (applyPopStep (execNode llm a s)).product_id =
        updField (runAgentNode llm a s).product_id s.product_id from rfl] at hv
      rcases runAgentNode_product llm a s with hn | hn
      · rw [hn] at hv
        exact hinv.2 v hv
      · rw [hn] at hv
        cases hv
        decide

theorem reaches_inv (llm : OrchestratorState → String) (s s'' : OrchestratorState)
    (h : Reaches llm s s'') (hinv : IdsNonEmpty s) : IdsNonEmpty s'' := by
  induction h with
  | refl s => exact hinv
  | step hstep _ ih => exact ih (engineStep_inv llm _ _ hstep hinv)

theorem engineStep_plan_dec (llm : OrchestratorState → String)
    (s s' : OrchestratorState) (h : engineStep llm s = some s') :
    (s'.plan.getD []).length < (s.plan.getD []).length := by
  unfold engineStep at h
  cases hr : next_step_router s with
  | finish =>
    rw [hr] at h
    cases h
  | agent a =>
    rw [hr] at h
    cases h
    obtain ⟨t, ht⟩ := router_cases s a hr
    rw [step_plan llm a s t ht, ht]
    simp

/-! ## Top-level run lemmas -/

theorem appTrace_eq (llm : OrchestratorState → String)
    (raw : Option (List AgentName)) (q : String) :
    appTrace llm raw q = plannedPlan raw :=
  runEngine_trace llm (plannedPlan raw) _ (postPlanner_plan raw q)

theorem runApp_final (llm : OrchestratorState → String)
    (raw : Option (List AgentName)) (q : String) :
    (runApp llm raw q).final_answer.isSome = true :=
  runEngine_final llm (plannedPlan raw) _ (postPlanner_plan raw q)
    (final_mem_plannedPlan raw)

theorem insights_not_missing (s : OrchestratorState) (v : String)
    (hv : s.work_order_id = some v) (hne : v ≠ "") (a e : String) :
    (service_insights_agent_node s).service_insights_result ≠
      some (ServiceInsightsResult.missingDep a e) := by
  simp only [service_insights_agent_node, hv]
  rw [if_neg fun hh => hne (String.isEmpty_iff v |>.mp hh)]
  simp

theorem knowledge_not_missing (s : OrchestratorState) (v : String)
    (hv : s.product_id = some v) (hne : v ≠ "") (a e : String) :
    (knowledge_agent_node s).knowledge_result ≠
      some (KnowledgeResult.missingDep a e) := by
  simp only [knowledge_agent_node, hv]
  rw [if_neg fun hh => hne (String.isEmpty_iff v |>.mp hh)]
  simp

/-! ## The claims -/

/-- C1 (corrected), counterexample to the claim as stated: when the
oracle's raw plan lists the terminal step in a non-final position, the
normalization appends a second copy and the engine executes the
terminal step twice, not exactly once. Raw plan
`[final_answer, scheduling_agent]` yields the trace
`[final_answer, scheduling_agent, final_answer]`. -/
theorem C1_counterexample :
    appTrace (fun _ => "") (some [AgentName.final_answer, AgentName.scheduling_agent]) "q" =
      [AgentName.final_answer, AgentName.scheduling_agent, AgentName.final_answer] ∧
    (appTrace (fun _ => "") (some [AgentName.final_answer, AgentName.scheduling_agent]) "q").count
      AgentName.final_answer ≠ 1 := by
  constructor
  · rw [appTrace_eq]
    decide
  · rw [appTrace_eq]
    decide

/-- C1 (amended): for every plan returned by the oracle, after
ingestion-normalization the terminal step is the last step executed
before the run terminates; it is executed exactly once provided the
raw plan does not already list the terminal step in a non-final
position (in particular whenever the raw output is unparseable, empty,
or lists it only last). -/
theorem C1_terminal_last (llm : OrchestratorState → String)
    (raw : Option (List AgentName)) (q : String) :
    (appTrace llm raw q).getLast? = some AgentName.final_answer ∧
    ((∀ p, raw = some p → AgentName.final_answer ∉ p.dropLast) →
      (appTrace llm raw q).count AgentName.final_answer = 1) := by
  rw [appTrace_eq]
  exact ⟨plannedPlan_getLast raw, fun h => plannedPlan_count_one raw h⟩

/-- Witness for C1 at a concrete run. -/
theorem C1_witness :
    (appTrace (fun _ => "x") (some [AgentName.scheduling_agent, AgentName.final_answer])
      "hi").getLast? = some AgentName.final_answer ∧
    (appTrace (fun _ => "x") (some [AgentName.scheduling_agent, AgentName.final_answer])
      "hi").count AgentName.final_answer = 1 :=
  ⟨(C1_terminal_last (fun _ => "x")
      (some [AgentName.scheduling_agent, AgentName.final_answer]) "hi").1,
   (C1_terminal_last (fun _ => "x")
      (some [AgentName.scheduling_agent, AgentName.final_answer]) "hi").2
      (by intro p hp; cases hp; decide)⟩

/-- C2 (confirmed): the engine's main loop terminates — every iteration
strictly decreases the plan length, and on an empty plan the router
returns `END` (so the loop stops). The totality of `runEngine` itself
rests on exactly this measure. -/
theorem C2_plan_decreases :
    (∀ (llm : OrchestratorState → String) (s s' : OrchestratorState),
      engineStep llm s = some s' →
        (s'.plan.getD []).length < (s.plan.getD []).length) ∧
    (∀ s : OrchestratorState, s.plan.getD [] = [] →
      next_step_router s = Route.finish) :=
  ⟨fun llm s s' h => engineStep_plan_dec llm s s' h,
   fun s h => router_eq_finish s h⟩

/-- Witness for C2 at a concrete state. -/
theorem C2_witness :
    ((({ plan := some [], final_answer := some "a" } : OrchestratorState).plan.getD []).length <
      (({ plan := some [AgentName.final_answer] } : OrchestratorState).plan.getD []).length) ∧
    next_step_router ({ plan := some [] } : OrchestratorState) = Route.finish :=
  ⟨C2_plan_decreases.1 (fun _ => "a") { plan := some [AgentName.final_answer] }
      { plan := some [], final_answer := some "a" } (by decide),
   C2_plan_decreases.2 { plan := some [] } (by decide)⟩

/-- C3 (confirmed): an unparseable oracle response (`none`) or an empty
plan list falls back to the single-element plan containing only the
terminal step, and the run still produces a rendered answer. -/
theorem C3_fallback (llm : OrchestratorState → String) (q : String)
    (raw : Option (List AgentName)) (h : raw = none ∨ raw = some []) :
    plannedPlan raw = [AgentName.final_answer] ∧
    appTrace llm raw q = [AgentName.final_answer] ∧
    (runApp llm raw q).final_answer.isSome = true := by
  have hp : plannedPlan raw = [AgentName.final_answer] := by
    rcases h with h | h <;> subst h <;> decide
  exact ⟨hp, by rw [appTrace_eq, hp], runApp_final llm raw q⟩

/-- Witness for C3 at a concrete unparseable response. -/
theorem C3_witness :
    plannedPlan none = [AgentName.final_answer] ∧
    appTrace (fun _ => "ok") none "hello" = [AgentName.final_answer] ∧
    (runApp (fun _ => "ok") none "hello").final_answer.isSome = true :=
  C3_fallback (fun _ => "ok") "hello" none (Or.inl rfl)

/-- C4 (corrected), counterexample to the claim as stated: a present,
non-null `work_order_id` bound to the empty string still yields the
MissingDependency marker, because the source tests Python truthiness
(`if not work_order_id`), not presence. -/
theorem C4_counterexample :
    ({ work_order_id := some "" } : OrchestratorState).work_order_id = some "" ∧
    (service_insights_agent_node { work_order_id := some "" }).service_insights_result =
      some (ServiceInsightsResult.missingDep "service_insights_agent" "Missing work_order_id") :=
  ⟨rfl, by decide⟩

/-- C4 (amended): if a step's declared required key is present and
non-empty before invocation, the step's result is never a
MissingDependency marker. -/
theorem C4_required_nonempty :
    (∀ (s : OrchestratorState) (v : String), s.work_order_id = some v → v ≠ "" →
      ∀ a e, (service_insights_agent_node s).service_insights_result ≠
        some (ServiceInsightsResult.missingDep a e)) ∧
    (∀ (s : OrchestratorState) (v : String), s.product_id = some v → v ≠ "" →
      ∀ a e, (knowledge_agent_node s).knowledge_result ≠
        some (KnowledgeResult.missingDep a e)) :=
  ⟨fun s v hv hne a e => insights_not_missing s v hv hne a e,
   fun s v hv hne a e => knowledge_not_missing s v hv hne a e⟩

/-- Witness for C4 at concrete non-empty identifiers. -/
theorem C4_witness :
    ((service_insights_agent_node { work_order_id := some "WO-1" }).service_insights_result ≠
      some (ServiceInsightsResult.missingDep "service_insights_agent" "Missing work_order_id")) ∧
    ((knowledge_agent_node { product_id := some "PROD-9" }).knowledge_result ≠
      some (KnowledgeResult.missingDep "knowledge_agent" "Missing product_id")) :=
  ⟨C4_required_nonempty.1 { work_order_id := some "WO-1" } "WO-1" rfl (by decide)
      "service_insights_agent" "Missing work_order_id",
   C4_required_nonempty.2 { product_id := some "PROD-9" } "PROD-9" rfl (by decide)
      "knowledge_agent" "Missing product_id"⟩

/-- C5 (confirmed): on a missing required key the step merges a
diagnostic marker under its step-scoped result key, and the engine
keeps executing the remaining plan — the whole plan is always traced
and the terminal compose step always produces a rendered answer. -/
theorem C5_missing_dep_degrades :
    (∀ s : OrchestratorState, s.work_order_id = none →
      (service_insights_agent_node s).service_insights_result =
        some (ServiceInsightsResult.missingDep "service_insights_agent" "Missing work_order_id")) ∧
    (∀ s : OrchestratorState, s.product_id = none →
      (knowledge_agent_node s).knowledge_result =
        some (KnowledgeResult.missingDep "knowledge_agent" "Missing product_id")) ∧
    (∀ (llm : OrchestratorState → String) (raw : Option (List AgentName)) (q : String),
      appTrace llm raw q = plannedPlan raw ∧
      (runApp llm raw q).final_answer.isSome = true) := by
  refine ⟨?_, ?_, fun llm raw q => ⟨appTrace_eq llm raw q, runApp_final llm raw q⟩⟩
  · intro s h
    simp [service_insights_agent_node, h]
  · intro s h
    simp [knowledge_agent_node, h]

/-- Witness for C5 at a concrete missing dependency. -/
theorem C5_witness :
    (service_insights_agent_node (initState "x")).service_insights_result =
      some (ServiceInsightsResult.missingDep "service_insights_agent" "Missing work_order_id") ∧
    (knowledge_agent_node (initState "x")).knowledge_result =
      some (KnowledgeResult.missingDep "knowledge_agent" "Missing product_id") ∧
    appTrace (fun _ => "y")
        (some [AgentName.service_insights_agent, AgentName.final_answer]) "x" =
      plannedPlan (some [AgentName.service_insights_agent, AgentName.final_answer]) ∧
    (runApp (fun _ => "y")
        (some [AgentName.service_insights_agent, AgentName.final_answer])
        "x").final_answer.isSome = true :=
  ⟨C5_missing_dep_degrades.1 (initState "x") rfl,
   C5_missing_dep_degrades.2.1 (initState "x") rfl,
   C5_missing_dep_degrades.2.2 (fun _ => "y")
      (some [AgentName.service_insights_agent, AgentName.final_answer]) "x"⟩

/-- C6 (corrected), counterexample to the claim as stated: the claimed
normalization collapses the separator (dash, underscore, or space) to
a single dash, which on the text `"wo 1"` would give `"WO-1"`; the
source instead deletes the space (`replace(" ", "")`) and returns
`"WO1"`. -/
theorem C6_counterexample :
    extract_work_order_id "wo 1" = some "WO1" ∧ ("WO1" : String) ≠ "WO-1" := by
  constructor
  · decide
  · decide

/-- C6 (amended): each identifier extractor returns at most one value —
the first regex match, `none` when there is no match (the `Option`
return type) — and normalizes the matched token by upper-casing it,
mapping the underscore separator to a dash and deleting spaces: the
returned value is non-empty and contains no space, no underscore, and
no lower-case letter. -/
theorem C6_extract_normalized :
    (∀ (t v : String), extract_work_order_id t = some v →
      v ≠ "" ∧ ' ' ∉ v.data ∧ '_' ∉ v.data ∧ v.data.map Char.toUpper = v.data) ∧
    (∀ (t v : String), extract_product_id t = some v →
      v ≠ "" ∧ ' ' ∉ v.data ∧ '_' ∉ v.data ∧ v.data.map Char.toUpper = v.data) :=
  ⟨fun t v h => extract_value_props WO_PAT (by decide) t.data v h,
   fun t v h => extract_value_props PROD_PAT (by decide) t.data v h⟩

/-- Witness for C6 at a concrete extraction. -/
theorem C6_witness :
    ("WO-7" : String) ≠ "" ∧ ' ' ∉ ("WO-7" : String).data ∧
    '_' ∉ ("WO-7" : String).data ∧
    ("WO-7" : String).data.map Char.toUpper = ("WO-7" : String).data :=
  C6_extract_normalized.1 "wo_7" "WO-7" (by decide)

/-- C7 (confirmed): identifier extraction is idempotent — re-running an
extractor on a value it returned yields that same value. -/
theorem C7_idempotent :
    (∀ t v : String, extract_work_order_id t = some v →
      extract_work_order_id v = some v) ∧
    (∀ t v : String, extract_product_id t = some v →
      extract_product_id v = some v) :=
  ⟨fun t v h => extract_work_order_id_idem t v h,
   fun t v h => extract_product_id_idem t v h⟩

/-- Witness for C7 at concrete extractions. -/
theorem C7_witness :
    extract_work_order_id "WO12" = some "WO12" ∧
    extract_product_id "PROD-3" = some "PROD-3" :=
  ⟨C7_idempotent.1 "see wo 12" "WO12" (by decide),
   C7_idempotent.2 "prod_3" "PROD-3" (by decide)⟩

/-- C8 (confirmed): in every state reachable in a run (from the state
the planner establishes), a present `work_order_id` or `product_id` is
bound to a non-empty string — the planner writes these keys only for
truthy extractions, and the specialist steps write fixed non-empty
values. -/
theorem C8_ids_nonempty (llm : OrchestratorState → String)
    (raw : Option (List AgentName)) (q : String) (s : OrchestratorState)
    (h : Reaches llm (postPlanner raw q) s) :
    (∀ v, s.work_order_id = some v → v ≠ "") ∧
    (∀ v, s.product_id = some v → v ≠ "") :=
  reaches_inv llm (postPlanner raw q) s h (postPlanner_inv raw q)

/-- Witness for C8 at the concrete post-planner state. -/
theorem C8_witness :
    (∀ v, (postPlanner (some []) "fix wo 5").work_order_id = some v → v ≠ "") ∧
    (∀ v, (postPlanner (some []) "fix wo 5").product_id = some v → v ≠ "") :=
  C8_ids_nonempty (fun _ => "z") (some []) "fix wo 5" (postPlanner (some []) "fix wo 5")
    (Reaches.refl (postPlanner (some []) "fix wo 5"))

/-- C9 (confirmed): popping is total and safe at the boundary — on a
state whose plan is absent or empty, `pop_step_node` returns the empty
plan and `next_step_router` routes to `END` instead of indexing into an
empty list. -/
theorem C9_pop_safe (s : OrchestratorState)
    (h : s.plan = none ∨ s.plan = some []) :
    (pop_step_node s).plan = some [] ∧ next_step_router s = Route.finish := by
  rcases h with h | h
  · exact ⟨by simp [pop_step_node, h], router_eq_finish s (by simp [h])⟩
  · exact ⟨by simp [pop_step_node, h], router_eq_finish s (by simp [h])⟩

/-- Witness for C9 at the empty state (plan key absent). -/
theorem C9_witness :
    (pop_step_node ({} : OrchestratorState)).plan = some [] ∧
    next_step_router ({} : OrchestratorState) = Route.finish :=
  C9_pop_safe {} (Or.inl rfl)

/-- C10 (confirmed): the scheduling step is independent of the
blackboard — it returns the same update on any two states — and merging
its update always leaves `work_order_id = "WO-100245"`, overwriting any
identifier seeded earlier in the run. -/
theorem C10_scheduling_constant :
    (∀ s₁ s₂ : OrchestratorState, scheduling_agent_node s₁ = scheduling_agent_node s₂) ∧
    (∀ s : OrchestratorState,
      (mergeState s (scheduling_agent_node s)).work_order_id = some "WO-100245") :=
  ⟨fun _ _ => rfl, fun _ => rfl⟩

